import Mathlib

/-!
Verification of the path-set trie (`PathsMap`) from
`milli/src/search/new/ranking_rule_graph/paths_map.rs`.

The Rust type

  pub struct PathsMap<V> { nodes: Vec<(u32, PathsMap<V>)>, value: Option<V> }

is embedded as a nested inductive with a `List` of `(edge id, child)` pairs;
edge ids (`u32`, used only for equality) are embedded as `Nat`.  Each Rust
method is translated function-by-function below; in-place mutation becomes a
function returning the new trie, the `while i < self.nodes.len()` loops with
`self.nodes.remove(i)` become ordered traversals of the child list (an element
is examined once and either dropped or kept, and `i` advances exactly when the
element is kept, so the loop is an ordered filter/map of the list), and the
`value.take().unwrap()` that can panic in `remove_first_rec` is modelled by an
`Option` result where `none` is the panic.
-/

inductive PathsMap (V : Type) : Type where
  | mk (nodes : List (Nat × PathsMap V)) (value : Option V)

namespace CheapestPaths

/-- The external `Path { edges: Vec<u32>, cost: u64 }` value type consumed by
`from_paths` (defined in `cheapest_paths.rs`; its shape is fixed by the uses
in `paths_map.rs`). -/
structure Path where
  edges : List Nat
  cost : Nat

end CheapestPaths

namespace PathsMap

variable {V : Type} {U : Type}

/-- Projection of the `nodes` field (ordered children: `(edge id, subtree)`). -/
def nodes : PathsMap V → List (Nat × PathsMap V)
  | .mk ns _ => ns

/-- Projection of the `value` field (payload of a terminal node). -/
def value : PathsMap V → Option V
  | .mk _ v => v

/-- `Default::default()`: the empty trie. -/
def empty : PathsMap V := .mk [] none

/-- `fn is_empty(&self) -> bool { self.nodes.is_empty() && self.value.is_none() }` -/
def is_empty (t : PathsMap V) : Bool := t.nodes.isEmpty && t.value.isNone

/-- The child-list scan inside `insert`: the first child whose edge id equals
`e` is replaced by `upd` applied to it (Rust: `return next_node.insert(..)`);
if no child matches, `(e, fresh)` is pushed at the end (Rust:
`self.nodes.push((first_edge, rest))`). -/
def insertNodes (e : Nat) (upd : PathsMap V → PathsMap V) (fresh : PathsMap V) :
    List (Nat × PathsMap V) → List (Nat × PathsMap V)
  | [] => [(e, fresh)]
  | (e2, c) :: tail =>
      if e2 = e then (e2, upd c) :: tail
      else (e2, c) :: insertNodes e upd fresh tail

/-- `fn insert(&mut self, edges: impl Iterator<Item = u32>, value: V)`: walk
the edge sequence, descending into the matching child or creating a fresh
chain, and overwrite `value` at the end of the sequence. -/
def insert : PathsMap V → List Nat → V → PathsMap V
  | .mk ns _, [], v => .mk ns (some v)
  | .mk ns val, e :: rest, v =>
      .mk (insertNodes e (fun c => insert c rest v) (insert (.mk [] none) rest v) ns) val

/-- `fn add_path(&mut self, path: &Path)`. -/
def add_path (t : PathsMap Nat) (p : CheapestPaths.Path) : PathsMap Nat :=
  insert t p.edges p.cost

/-- `fn from_paths(paths: &[Path]) -> Self`: fold `add_path` over the batch,
starting from the empty trie. -/
def from_paths (ps : List CheapestPaths.Path) : PathsMap Nat :=
  ps.foldl add_path empty

/-- `fn remove_first_rec(&mut self, cur: &mut Vec<u32>) -> (bool, V)`.
The result is `none` exactly when the Rust code panics on
`self.value.take().unwrap()` (childless node with no value); otherwise it is
`some (suffix, flag, v, t)` where `suffix` is what the call appends to `cur`,
`flag` is the returned bool, `v` the returned value and `t` the mutated node.
Note the Rust returns `self.nodes.is_empty()` after removing the drained first
child, ignoring `self.value`. -/
def remove_first_rec : PathsMap V → Option (List Nat × Bool × V × PathsMap V)
  | .mk [] none => none
  | .mk [] (some v) => some ([], true, v, .mk [] none)
  | .mk ((e, c) :: tail) val =>
      match remove_first_rec c with
      | none => none
      | some (p, restEmpty, v, c2) =>
          if restEmpty then some (e :: p, tail.isEmpty, v, .mk tail val)
          else some (e :: p, false, v, .mk ((e, c2) :: tail) val)

/-- `fn remove_first(&mut self) -> Option<(Vec<u32>, V)>`: the outer `Option`
models the possible panic of `remove_first_rec`, the inner one is the Rust
return value (`none` on an empty trie, with the trie left unchanged). -/
def remove_first (t : PathsMap V) : Option (Option (List Nat × V) × PathsMap V) :=
  if t.is_empty then some (none, t)
  else
    match remove_first_rec t with
    | none => none
    | some (p, _, v, t2) => some (some (p, v), t2)

/-- The entry contributed by one node's `value` during `iterate_rec`. -/
def optEntry : Option V → List (List Nat × V)
  | some v => [([], v)]
  | none => []

/-- The child loop of `fn iterate_rec`: each child contributes its own
traversal with its edge id pushed in front. -/
def iterNodes : List (Nat × PathsMap V) → List (List Nat × V)
  | [] => []
  | (e, .mk cns cval) :: tail =>
      (optEntry cval ++ iterNodes cns).map (fun q => (e :: q.1, q.2)) ++ iterNodes tail

/-- `fn iterate(&self, visit)`: the list of `(edge sequence, value)` pairs, in
the order `visit` is invoked (a node's own value first, then its children in
order, depth first). -/
def iterateList (t : PathsMap V) : List (List Nat × V) :=
  optEntry t.value ++ iterNodes t.nodes

/-- The child loop of `fn remove_prefix(&mut self, forbidden_prefix: &[u32])`,
with the recursive call inlined: a child matching the head of the prefix is
pruned with the remaining prefix (an empty remaining prefix clears it
entirely) and then dropped when its child list came out empty. -/
def removePrefixNodes : Nat → List Nat → List (Nat × PathsMap V) → List (Nat × PathsMap V)
  | _, _, [] => []
  | f, rest, (e, .mk cns cval) :: tail =>
      if e = f then
        match rest with
        | [] => removePrefixNodes f rest tail
        | f2 :: rest2 =>
            let cns2 := removePrefixNodes f2 rest2 cns
            if cns2.isEmpty then removePrefixNodes f rest tail
            else (e, .mk cns2 cval) :: removePrefixNodes f rest tail
      else (e, .mk cns cval) :: removePrefixNodes f rest tail

/-- `fn remove_prefix(&mut self, forbidden_prefix: &[u32])`: with an empty
prefix the node is cleared (`self.nodes.clear(); self.value = None`);
otherwise the child list is filtered by `removePrefixNodes`. -/
def removePrefix : List Nat → PathsMap V → PathsMap V
  | [], _ => .mk [] none
  | f :: rest, .mk ns val => .mk (removePrefixNodes f rest ns) val

/-- `fn remove_prefixes<U>(&mut self, prefixes: &PathsMap<U>)`: one
`remove_prefix` per complete path of `prefixes`, in `iterate` order. -/
def removePrefixes (pfxs : PathsMap U) (t : PathsMap V) : PathsMap V :=
  (iterateList pfxs).foldl (fun acc q => removePrefix q.1 acc) t

/-- The child loop of `fn remove_edge(&mut self, forbidden_edge: &u32)`: a
child whose edge id is the forbidden one is dropped wholesale; otherwise, if
its child list is non-empty, it is pruned recursively and dropped when that
list came out empty (the Rust tests `self.nodes[i].1.nodes.is_empty()`). -/
def removeEdgeNodes (f : Nat) : List (Nat × PathsMap V) → List (Nat × PathsMap V)
  | [] => []
  | (e, .mk cns cval) :: tail =>
      if e = f then removeEdgeNodes f tail
      else if cns.isEmpty then (e, .mk cns cval) :: removeEdgeNodes f tail
      else
        let cns2 := removeEdgeNodes f cns
        if cns2.isEmpty then removeEdgeNodes f tail
        else (e, .mk cns2 cval) :: removeEdgeNodes f tail

/-- `fn remove_edge(&mut self, forbidden_edge: &u32)`. -/
def removeEdge (f : Nat) (t : PathsMap V) : PathsMap V :=
  .mk (removeEdgeNodes f t.nodes) t.value

/-- The child loop of `fn remove_edges(&mut self, forbidden_edges: &RoaringBitmap)`;
the bitmap (a set of `u32`, used only through `contains`) is a `Finset Nat`. -/
def removeEdgesNodes (fs : Finset Nat) : List (Nat × PathsMap V) → List (Nat × PathsMap V)
  | [] => []
  | (e, .mk cns cval) :: tail =>
      if e ∈ fs then removeEdgesNodes fs tail
      else if cns.isEmpty then (e, .mk cns cval) :: removeEdgesNodes fs tail
      else
        let cns2 := removeEdgesNodes fs cns
        if cns2.isEmpty then removeEdgesNodes fs tail
        else (e, .mk cns2 cval) :: removeEdgesNodes fs tail

/-- `fn remove_edges(&mut self, forbidden_edges: &RoaringBitmap)`. -/
def removeEdges (fs : Finset Nat) (t : PathsMap V) : PathsMap V :=
  .mk (removeEdgesNodes fs t.nodes) t.value

/-- `fn edge_indices_after_prefix(&self, prefix: &[u32]) -> Vec<u32>`: walk
strictly along the prefix (first matching child at each step); an empty prefix
returns the current node's child edge ids, and a failed step returns `[]`. -/
def edgeIndicesAfterPrefix : List Nat → PathsMap V → List Nat
  | [], t => t.nodes.map (fun p => p.1)
  | f :: rest, t =>
      match t.nodes.find? (fun p => p.1 == f) with
      | some p => edgeIndicesAfterPrefix rest p.2
      | none => []

/-- `fn contains_prefix_of_path(&self, path: &[u32]) -> bool`: true as soon as
the current node holds a value, otherwise descend along the candidate path. -/
def contains_prefix_of_path : PathsMap V → List Nat → Bool
  | .mk _ (some _), _ => true
  | .mk _ none, [] => false
  | .mk ns none, f :: rest =>
      match ns.find? (fun p => p.1 == f) with
      | some p => contains_prefix_of_path p.2 rest
      | none => false

/-!
Specification-level observers (not part of the Rust API).  `descend` follows
an edge sequence to the sub-trie it addresses (first matching child at each
level, the same scan order every Rust method uses) and `getPath` reads the
value stored at a complete path; "the trie stores path `p` with value `v`"
is `getPath t p = some v`.  `drain` is the harness "call `remove_first`
repeatedly until it returns `None` (or panics)", with fuel.
-/

/-- Follow `p` through the trie; `none` when some step has no matching child. -/
def descend : PathsMap V → List Nat → Option (PathsMap V)
  | t, [] => some t
  | t, f :: rest =>
      match t.nodes.find? (fun p => p.1 == f) with
      | some p => descend p.2 rest
      | none => none

/-- The value stored at the complete path `p`, if any. -/
def getPath (t : PathsMap V) (p : List Nat) : Option V :=
  (descend t p).bind value

/-- Repeatedly call `remove_first`, collecting the returned pairs, stopping
when it returns `None`, panics, or the fuel runs out. -/
def drain : Nat → PathsMap V → List (List Nat × V)
  | 0, _ => []
  | n + 1, t =>
      match remove_first t with
      | some (some q, t2) => q :: drain n t2
      | _ => []

/-- Number of trie nodes below a child list (used for induction). -/
def sizeN : List (Nat × PathsMap V) → Nat
  | [] => 0
  | (_, .mk cns _) :: tail => sizeN cns + sizeN tail + 1

/-- Structural well-formedness of a child list: every child is non-empty
(the collapse invariant: no reachable non-root node has empty children and no
value) and recursively well formed. -/
def wfN : List (Nat × PathsMap V) → Bool
  | [] => true
  | (_, .mk cns cval) :: tail =>
      !(cns.isEmpty && cval.isNone) && wfN cns && wfN tail

/-- The collapse invariant for a whole trie (the root itself may be empty). -/
def wf (t : PathsMap V) : Bool := wfN t.nodes

/-- Every valued node of a child list is a leaf (no stored edge sequence is a
proper prefix of another). -/
def leafValuedN : List (Nat × PathsMap V) → Bool
  | [] => true
  | (_, .mk cns cval) :: tail =>
      (cval.isNone || cns.isEmpty) && leafValuedN cns && leafValuedN tail

/-- Every valued node of the trie, root included, is a leaf. -/
def leafValued (t : PathsMap V) : Bool :=
  (t.value.isNone || t.nodes.isEmpty) && leafValuedN t.nodes

/-- The tries reachable from the empty trie by the public mutating
operations (`remove_first` steps only when the call does not panic). -/
inductive Reachable : PathsMap V → Prop where
  | start : Reachable (empty : PathsMap V)
  | stepInsert : ∀ (t : PathsMap V) (p : List Nat) (v : V),
      Reachable t → Reachable (insert t p v)
  | stepRemoveEdge : ∀ (f : Nat) (t : PathsMap V),
      Reachable t → Reachable (removeEdge f t)
  | stepRemoveEdges : ∀ (fs : Finset Nat) (t : PathsMap V),
      Reachable t → Reachable (removeEdges fs t)
  | stepRemovePfx : ∀ (s : List Nat) (t : PathsMap V),
      Reachable t → Reachable (removePrefix s t)
  | stepRemovePfxs : ∀ {U : Type} (u : PathsMap U) (t : PathsMap V),
      Reachable t → Reachable (removePrefixes u t)
  | stepRemoveFirst : ∀ (t : PathsMap V) (r : Option (List Nat × V)) (t2 : PathsMap V),
      Reachable t → remove_first t = some (r, t2) → Reachable t2

/-- A concrete trie storing `[1] ↦ 10` and `[1, 2] ↦ 20`: the stored path
`[1]` is a proper prefix of the stored path `[1, 2]`. -/
def samplePrefixPair : PathsMap Nat :=
  insert (insert empty [1] 10) [1, 2] 20

end PathsMap

namespace PathsMap

/-! Basic lemmas about the projections and one-step unfoldings of the
recursive definitions (stated for an un-destructured child, so they can be
applied without case analysis). -/

@[simp] theorem nodes_mk (ns : List (Nat × PathsMap V)) (v : Option V) :
    (PathsMap.mk ns v).nodes = ns := rfl

@[simp] theorem value_mk (ns : List (Nat × PathsMap V)) (v : Option V) :
    (PathsMap.mk ns v).value = v := rfl

theorem mk_nodes_value (t : PathsMap V) : PathsMap.mk t.nodes t.value = t := by
  cases t
  rfl

@[simp] theorem is_empty_mk (ns : List (Nat × PathsMap V)) (v : Option V) :
    is_empty (PathsMap.mk ns v) = (ns.isEmpty && v.isNone) := rfl

theorem is_empty_eq_false_iff (t : PathsMap V) :
    is_empty t = false ↔ (t.nodes ≠ [] ∨ t.value ≠ none) := by
  cases t with
  | mk ns v =>
      cases ns <;> cases v <;> simp [is_empty]

theorem eq_empty_of_is_empty {t : PathsMap V} (h : is_empty t = true) :
    t = PathsMap.mk [] none := by
  cases t with
  | mk ns v =>
      cases ns <;> cases v <;> simp_all [is_empty]

theorem sizeN_cons (e : Nat) (c : PathsMap V) (tail : List (Nat × PathsMap V)) :
    sizeN ((e, c) :: tail) = sizeN c.nodes + sizeN tail + 1 := by
  cases c with
  | mk cns cval => simp [sizeN]

/-- Nested induction over child lists: the motive may assume itself for the
head child's own child list and for the tail. -/
theorem ind_nodes {motive : List (Nat × PathsMap V) → Prop}
    (h0 : motive [])
    (h1 : ∀ e cns cval tail, motive cns → motive tail → motive ((e, .mk cns cval) :: tail)) :
    ∀ ns, motive ns := by
  have key : ∀ n (ns : List (Nat × PathsMap V)), sizeN ns ≤ n → motive ns := by
    intro n
    induction n with
    | zero =>
        intro ns h
        match ns with
        | [] => exact h0
        | (e, .mk cns cval) :: tail => simp [sizeN] at h
    | succ n ih =>
        intro ns h
        match ns with
        | [] => exact h0
        | (e, .mk cns cval) :: tail =>
            have hs : sizeN cns + sizeN tail + 1 ≤ n + 1 := by simpa [sizeN] using h
            exact h1 e cns cval tail (ih cns (by omega)) (ih tail (by omega))
  intro ns
  exact key (sizeN ns) ns le_rfl

/-- Nested induction over tries: the motive may assume itself for every child. -/
theorem ind_tree {motive : PathsMap V → Prop}
    (h : ∀ ns val, (∀ p ∈ ns, motive p.2) → motive (.mk ns val)) :
    ∀ t, motive t := by
  have key : ∀ ns : List (Nat × PathsMap V), ∀ p ∈ ns, motive p.2 := by
    intro ns
    induction ns using ind_nodes with
    | h0 => intro p hp; cases hp
    | h1 e cns cval tail ih1 ih2 =>
        intro p hp
        rcases List.mem_cons.mp hp with rfl | hp
        · exact h cns cval ih1
        · exact ih2 p hp
  intro t
  cases t with
  | mk ns val => exact h ns val (key ns)

theorem wfN_cons (e : Nat) (c : PathsMap V) (tail : List (Nat × PathsMap V)) :
    wfN ((e, c) :: tail) = (!is_empty c && wf c && wfN tail) := by
  cases c with
  | mk cns cval => simp [wfN, wf, is_empty]

theorem leafValuedN_cons (e : Nat) (c : PathsMap V) (tail : List (Nat × PathsMap V)) :
    leafValuedN ((e, c) :: tail) = (leafValued c && leafValuedN tail) := by
  cases c with
  | mk cns cval => simp [leafValuedN, leafValued]

theorem iterNodes_cons (e : Nat) (c : PathsMap V) (tail : List (Nat × PathsMap V)) :
    iterNodes ((e, c) :: tail) =
      (iterateList c).map (fun q => (e :: q.1, q.2)) ++ iterNodes tail := by
  cases c with
  | mk cns cval => simp [iterNodes, iterateList]

theorem removeEdgeNodes_cons (f e : Nat) (c : PathsMap V) (tail : List (Nat × PathsMap V)) :
    removeEdgeNodes f ((e, c) :: tail) =
      if e = f then removeEdgeNodes f tail
      else if c.nodes.isEmpty then (e, c) :: removeEdgeNodes f tail
      else if (removeEdgeNodes f c.nodes).isEmpty then removeEdgeNodes f tail
      else (e, .mk (removeEdgeNodes f c.nodes) c.value) :: removeEdgeNodes f tail := by
  cases c with
  | mk cns cval => simp [removeEdgeNodes]

theorem removeEdgesNodes_cons (fs : Finset Nat) (e : Nat) (c : PathsMap V)
    (tail : List (Nat × PathsMap V)) :
    removeEdgesNodes fs ((e, c) :: tail) =
      if e ∈ fs then removeEdgesNodes fs tail
      else if c.nodes.isEmpty then (e, c) :: removeEdgesNodes fs tail
      else if (removeEdgesNodes fs c.nodes).isEmpty then removeEdgesNodes fs tail
      else (e, .mk (removeEdgesNodes fs c.nodes) c.value) :: removeEdgesNodes fs tail := by
  cases c with
  | mk cns cval => simp [removeEdgesNodes]

theorem removePrefixNodes_cons_nil (f e : Nat) (c : PathsMap V)
    (tail : List (Nat × PathsMap V)) :
    removePrefixNodes f [] ((e, c) :: tail) =
      if e = f then removePrefixNodes f [] tail
      else (e, c) :: removePrefixNodes f [] tail := by
  cases c with
  | mk cns cval => simp [removePrefixNodes]

theorem removePrefixNodes_cons_cons (f f2 e : Nat) (rest2 : List Nat) (c : PathsMap V)
    (tail : List (Nat × PathsMap V)) :
    removePrefixNodes f (f2 :: rest2) ((e, c) :: tail) =
      if e = f then
        if (removePrefixNodes f2 rest2 c.nodes).isEmpty then
          removePrefixNodes f (f2 :: rest2) tail
        else (e, .mk (removePrefixNodes f2 rest2 c.nodes) c.value) ::
          removePrefixNodes f (f2 :: rest2) tail
      else (e, c) :: removePrefixNodes f (f2 :: rest2) tail := by
  cases c with
  | mk cns cval => simp [removePrefixNodes]

end PathsMap

namespace PathsMap

/-! Preservation of the collapse invariant `wf` by every mutating operation. -/

theorem wf_empty : wf (empty : PathsMap V) = true := by
  simp [wf, wfN, empty]

theorem insertNodes_ne_nil (e : Nat) (upd : PathsMap V → PathsMap V) (fresh : PathsMap V)
    (ns : List (Nat × PathsMap V)) : insertNodes e upd fresh ns ≠ [] := by
  cases ns with
  | nil => simp [insertNodes]
  | cons p tail =>
      obtain ⟨e2, c⟩ := p
      simp only [insertNodes]
      split <;> simp

theorem is_empty_insert (t : PathsMap V) (p : List Nat) (v : V) :
    is_empty (insert t p v) = false := by
  cases p with
  | nil => cases t with
    | mk ns val => simp [insert]
  | cons e rest =>
      cases t with
      | mk ns val =>
          simp only [insert, is_empty_mk, Bool.and_eq_false_iff]
          left
          simp [List.isEmpty_iff, insertNodes_ne_nil]

theorem wf_insert (p : List Nat) (v : V) :
    ∀ t : PathsMap V, wf t = true → wf (insert t p v) = true := by
  induction p with
  | nil =>
      intro t h
      cases t with
      | mk ns val => simpa [insert, wf] using h
  | cons e rest ih =>
      intro t h
      cases t with
      | mk ns val =>
          simp only [insert, wf, nodes_mk]
          rw [wf] at h
          simp only [nodes_mk] at h
          induction ns with
          | nil =>
              simp only [insertNodes]
              rw [wfN_cons]
              have hfresh : wf (insert (PathsMap.mk [] none : PathsMap V) rest v) = true :=
                ih _ (by simp [wf, wfN])
              simp [is_empty_insert, hfresh, wfN]
          | cons q tail ihn =>
              obtain ⟨e2, c⟩ := q
              rw [wfN_cons] at h
              simp only [Bool.and_eq_true, Bool.not_eq_true'] at h
              obtain ⟨⟨hce, hcw⟩, htl⟩ := h
              simp only [insertNodes]
              split
              · rw [wfN_cons]
                simp [is_empty_insert, ih _ hcw, htl]
              · rw [wfN_cons]
                simp [hce, hcw, ihn htl]

theorem wfN_removeEdgeNodes (f : Nat) :
    ∀ ns : List (Nat × PathsMap V), wfN ns = true → wfN (removeEdgeNodes f ns) = true := by
  intro ns
  induction ns using ind_nodes with
  | h0 => intro h; simpa [removeEdgeNodes]
  | h1 e cns cval tail ih1 ih2 =>
      intro h
      rw [wfN_cons] at h
      simp only [Bool.and_eq_true, Bool.not_eq_true'] at h
      obtain ⟨⟨hce, hcw⟩, htl⟩ := h
      rw [removeEdgeNodes_cons]
      simp only [nodes_mk, value_mk]
      split
      · exact ih2 htl
      · split
        · rw [wfN_cons]
          simp only [Bool.and_eq_true, Bool.not_eq_true']
          exact ⟨⟨hce, hcw⟩, ih2 htl⟩
        · split
          · exact ih2 htl
          · rw [wfN_cons]
            simp only [Bool.and_eq_true, Bool.not_eq_true']
            refine ⟨⟨?_, ?_⟩, ih2 htl⟩
            · rename_i hne hnne hcne
              simp only [is_empty_mk, nodes_mk, value_mk, Bool.and_eq_false_iff]
              left
              simpa using hcne
            · rw [wf] at hcw ⊢
              simp only [nodes_mk] at hcw ⊢
              exact ih1 hcw

theorem wf_removeEdge (f : Nat) (t : PathsMap V) (h : wf t = true) :
    wf (removeEdge f t) = true := by
  cases t with
  | mk ns val =>
      rw [wf] at h ⊢
      simp only [nodes_mk] at h
      simpa [removeEdge] using wfN_removeEdgeNodes f ns h

theorem wfN_removeEdgesNodes (fs : Finset Nat) :
    ∀ ns : List (Nat × PathsMap V), wfN ns = true → wfN (removeEdgesNodes fs ns) = true := by
  intro ns
  induction ns using ind_nodes with
  | h0 => intro h; simpa [removeEdgesNodes]
  | h1 e cns cval tail ih1 ih2 =>
      intro h
      rw [wfN_cons] at h
      simp only [Bool.and_eq_true, Bool.not_eq_true'] at h
      obtain ⟨⟨hce, hcw⟩, htl⟩ := h
      rw [removeEdgesNodes_cons]
      simp only [nodes_mk, value_mk]
      split
      · exact ih2 htl
      · split
        · rw [wfN_cons]
          simp only [Bool.and_eq_true, Bool.not_eq_true']
          exact ⟨⟨hce, hcw⟩, ih2 htl⟩
        · split
          · exact ih2 htl
          · rw [wfN_cons]
            simp only [Bool.and_eq_true, Bool.not_eq_true']
            refine ⟨⟨?_, ?_⟩, ih2 htl⟩
            · rename_i hne hnne hcne
              simp only [is_empty_mk, nodes_mk, value_mk, Bool.and_eq_false_iff]
              left
              simpa using hcne
            · rw [wf] at hcw ⊢
              simp only [nodes_mk] at hcw ⊢
              exact ih1 hcw

theorem wf_removeEdges (fs : Finset Nat) (t : PathsMap V) (h : wf t = true) :
    wf (removeEdges fs t) = true := by
  cases t with
  | mk ns val =>
      rw [wf] at h ⊢
      simp only [nodes_mk] at h
      simpa [removeEdges] using wfN_removeEdgesNodes fs ns h

theorem wfN_removePrefixNodes :
    ∀ ns : List (Nat × PathsMap V), ∀ (f : Nat) (rest : List Nat),
      wfN ns = true → wfN (removePrefixNodes f rest ns) = true := by
  intro ns
  induction ns using ind_nodes with
  | h0 => intro f rest h; simpa [removePrefixNodes]
  | h1 e cns cval tail ih1 ih2 =>
      intro f rest h
      rw [wfN_cons] at h
      simp only [Bool.and_eq_true, Bool.not_eq_true'] at h
      obtain ⟨⟨hce, hcw⟩, htl⟩ := h
      cases rest with
      | nil =>
          rw [removePrefixNodes_cons_nil]
          split
          · exact ih2 f [] htl
          · rw [wfN_cons]
            simp only [Bool.and_eq_true, Bool.not_eq_true']
            exact ⟨⟨hce, hcw⟩, ih2 f [] htl⟩
      | cons f2 rest2 =>
          rw [removePrefixNodes_cons_cons]
          simp only [nodes_mk, value_mk]
          split
          · split
            · exact ih2 f (f2 :: rest2) htl
            · rw [wfN_cons]
              simp only [Bool.and_eq_true, Bool.not_eq_true']
              refine ⟨⟨?_, ?_⟩, ih2 f (f2 :: rest2) htl⟩
              · rename_i hne hcne
                simp only [is_empty_mk, nodes_mk, value_mk, Bool.and_eq_false_iff]
                left
                simpa using hcne
              · rw [wf] at hcw ⊢
                simp only [nodes_mk] at hcw ⊢
                exact ih1 f2 rest2 hcw
          · rw [wfN_cons]
            simp only [Bool.and_eq_true, Bool.not_eq_true']
            exact ⟨⟨hce, hcw⟩, ih2 f (f2 :: rest2) htl⟩

theorem wf_removePfx (s : List Nat) (t : PathsMap V) (h : wf t = true) :
    wf (removePrefix s t) = true := by
  cases s with
  | nil => simp [removePrefix, wf, wfN]
  | cons f rest =>
      cases t with
      | mk ns val =>
          rw [wf] at h ⊢
          simp only [nodes_mk] at h
          simpa [removePrefix] using wfN_removePrefixNodes ns f rest h

theorem wf_removePfxs (pfxs : PathsMap U) (t : PathsMap V) (h : wf t = true) :
    wf (removePrefixes pfxs t) = true := by
  rw [removePrefixes]
  generalize iterateList pfxs = l
  induction l generalizing t with
  | nil => simpa
  | cons q rest ih => exact ih _ (wf_removePfx q.1 t h)

theorem remove_first_rec_wf :
    ∀ t : PathsMap V, wf t = true →
      ∀ p flag v t2, remove_first_rec t = some (p, flag, v, t2) →
        wf t2 = true ∧ (flag = false → is_empty t2 = false) := by
  intro t
  induction t using ind_tree with
  | h ns val ih =>
      intro hw p flag v t2 hr
      cases ns with
      | nil =>
          cases val with
          | none => simp [remove_first_rec] at hr
          | some v0 =>
              simp only [remove_first_rec, Option.some.injEq] at hr
              obtain ⟨rfl, rfl, rfl, rfl⟩ := hr
              exact ⟨by simp [wf, wfN], by intro h; cases h⟩
      | cons q tail =>
          obtain ⟨e, c⟩ := q
          rw [wf] at hw
          simp only [nodes_mk] at hw
          rw [wfN_cons] at hw
          simp only [Bool.and_eq_true, Bool.not_eq_true'] at hw
          obtain ⟨⟨hce, hcw⟩, htl⟩ := hw
          simp only [remove_first_rec] at hr
          cases hrc : remove_first_rec c with
          | none => rw [hrc] at hr; cases hr
          | some out =>
              obtain ⟨p0, re, v0, c2⟩ := out
              rw [hrc] at hr
              have hc2 := ih (e, c) (List.mem_cons_self _ _) hcw p0 re v0 c2 hrc
              cases re with
              | true =>
                  simp only [if_pos rfl, Option.some.injEq] at hr
                  obtain ⟨rfl, rfl, rfl, rfl⟩ := hr
                  constructor
                  · rw [wf]; simpa using htl
                  · intro hfl
                    simp only [is_empty_mk, Bool.and_eq_false_iff]
                    left
                    exact hfl
              | false =>
                  simp only [Bool.false_eq_true, if_false, Option.some.injEq] at hr
                  obtain ⟨rfl, rfl, rfl, rfl⟩ := hr
                  constructor
                  · rw [wf]
                    simp only [nodes_mk]
                    rw [wfN_cons]
                    simp only [Bool.and_eq_true, Bool.not_eq_true']
                    exact ⟨⟨hc2.2 rfl, hc2.1⟩, htl⟩
                  · intro
                    simp [is_empty]

theorem remove_first_wf {t : PathsMap V} {r : Option (List Nat × V)} {t2 : PathsMap V}
    (hw : wf t = true) (h : remove_first t = some (r, t2)) : wf t2 = true := by
  rw [remove_first] at h
  split at h
  · simp only [Option.some.injEq, Prod.mk.injEq] at h
    rw [← h.2]
    exact hw
  · cases hr : remove_first_rec t with
    | none => rw [hr] at h; cases h
    | some out =>
        obtain ⟨p, flag, v, t2'⟩ := out
        rw [hr] at h
        simp only [Option.some.injEq, Prod.mk.injEq] at h
        rw [← h.2]
        exact (remove_first_rec_wf t hw p flag v t2' hr).1

end PathsMap

namespace PathsMap

/-- C4: for every `PathsMap` reachable from the empty trie by any sequence of
`insert`, `from_paths`, `remove_edge`, `remove_edges`, `remove_prefix`,
`remove_prefixes` and (non-panicking) `remove_first` calls, no reachable
non-root node has both an empty child list and no value (`wf`). -/
theorem collapse_invariant_of_reachable :
    (∀ (V : Type) (t : PathsMap V), Reachable t → wf t = true) ∧
      ∀ ps : List CheapestPaths.Path, wf (from_paths ps) = true := by
  have main : ∀ (V : Type) (t : PathsMap V), Reachable t → wf t = true := by
    intro V t h
    induction h with
    | start => exact wf_empty
    | stepInsert t p v _ ih => exact wf_insert p v t ih
    | stepRemoveEdge f t _ ih => exact wf_removeEdge f t ih
    | stepRemoveEdges fs t _ ih => exact wf_removeEdges fs t ih
    | stepRemovePfx s t _ ih => exact wf_removePfx s t ih
    | stepRemovePfxs u t _ ih => exact wf_removePfxs u t ih
    | stepRemoveFirst t r t2 _ he ih => exact remove_first_wf ih he
  refine ⟨main, fun ps => main Nat (from_paths ps) ?_⟩
  have key : ∀ (l : List CheapestPaths.Path) (t : PathsMap Nat),
      Reachable t → Reachable (l.foldl add_path t) := by
    intro l
    induction l with
    | nil => intro t h; simpa using h
    | cons p rest ih =>
        intro t h
        exact ih _ (Reachable.stepInsert t p.edges p.cost h)
  exact key ps empty Reachable.start

/-- Witness for C4: the invariant evaluated on one concrete reachable trie. -/
theorem collapse_invariant_of_reachable_witness :
    wf (removeEdge 2 (insert (insert (empty : PathsMap Nat) [1] 5) [1, 2] 7)) = true :=
  collapse_invariant_of_reachable.1 Nat _
    (Reachable.stepRemoveEdge 2 _
      (Reachable.stepInsert _ [1, 2] 7 (Reachable.stepInsert _ [1] 5 Reachable.start)))

theorem remove_first_rec_total :
    ∀ t : PathsMap V, wf t = true → is_empty t = false →
      ∃ out, remove_first_rec t = some out := by
  intro t
  induction t using ind_tree with
  | h ns val ih =>
      intro hw hne
      cases ns with
      | nil =>
          cases val with
          | none => simp [is_empty] at hne
          | some v0 => exact ⟨([], true, v0, .mk [] none), by simp [remove_first_rec]⟩
      | cons q tail =>
          obtain ⟨e, c⟩ := q
          rw [wf] at hw
          simp only [nodes_mk] at hw
          rw [wfN_cons] at hw
          simp only [Bool.and_eq_true, Bool.not_eq_true'] at hw
          obtain ⟨⟨hce, hcw⟩, htl⟩ := hw
          obtain ⟨out, hout⟩ := ih (e, c) (List.mem_cons_self _ _) hcw hce
          obtain ⟨p0, re, v0, c2⟩ := out
          cases re with
          | true =>
              exact ⟨(e :: p0, tail.isEmpty, v0, .mk tail val),
                by simp [remove_first_rec, hout]⟩
          | false =>
              exact ⟨(e :: p0, false, v0, .mk ((e, c2) :: tail) val),
                by simp [remove_first_rec, hout]⟩

/-- C7: on a well-formed trie `remove_first` cannot hit the
`value.take().unwrap()` panic (the embedded function never returns `none`),
and on an empty trie it returns `None` leaving the trie unchanged. -/
theorem remove_first_safe (V : Type) (t : PathsMap V) (hw : wf t = true) :
    remove_first t ≠ none ∧
      (is_empty t = true → remove_first t = some (none, t)) := by
  constructor
  · cases he : is_empty t with
    | true => simp [remove_first, he]
    | false =>
        obtain ⟨out, hout⟩ := remove_first_rec_total t hw he
        obtain ⟨p, flag, v, t2⟩ := out
        simp [remove_first, he, hout]
  · intro he
    simp [remove_first, he]

/-- Witness for C7 at a concrete well-formed one-path trie. -/
theorem remove_first_safe_witness :
    remove_first (insert (empty : PathsMap Nat) [1] 5) ≠ none ∧
      (is_empty (insert (empty : PathsMap Nat) [1] 5) = true →
        remove_first (insert (empty : PathsMap Nat) [1] 5) =
          some (none, insert (empty : PathsMap Nat) [1] 5)) := by
  have h : insert (empty : PathsMap Nat) [1] 5 = .mk [(1, .mk [] (some 5))] none := rfl
  exact remove_first_safe Nat _ (by rw [h]; simp [wf, wfN])

/-! Lemmas about the observers `descend` and `getPath`. -/

theorem descend_nil (t : PathsMap V) : descend t [] = some t := rfl

theorem descend_cons (t : PathsMap V) (f : Nat) (rest : List Nat) :
    descend t (f :: rest) =
      match t.nodes.find? (fun p => p.1 == f) with
      | some p => descend p.2 rest
      | none => none := rfl

@[simp] theorem getPath_nil (t : PathsMap V) : getPath t [] = t.value := rfl

theorem getPath_cons (t : PathsMap V) (f : Nat) (rest : List Nat) :
    getPath t (f :: rest) =
      match t.nodes.find? (fun p => p.1 == f) with
      | some p => getPath p.2 rest
      | none => none := by
  rw [getPath, descend_cons]
  cases t.nodes.find? (fun p => p.1 == f) with
  | none => rfl
  | some p => rfl

/-- C6: `contains_prefix_of_path(C)` is true exactly when some stored complete
path is a literal prefix of `C` (the empty prefix included: a value at the
root makes it true immediately), and it is false on the empty trie for every
candidate. -/
theorem contains_prefix_of_path_iff :
    (∀ (V : Type) (t : PathsMap V) (C : List Nat),
      contains_prefix_of_path t C = true ↔
        ∃ p, p <+: C ∧ (getPath t p).isSome = true) ∧
      ∀ (V : Type) (C : List Nat),
        contains_prefix_of_path (empty : PathsMap V) C = false := by
  have main : ∀ (V : Type) (C : List Nat) (t : PathsMap V),
      contains_prefix_of_path t C = true ↔
        ∃ p, p <+: C ∧ (getPath t p).isSome = true := by
    intro V C
    induction C with
    | nil =>
        intro t
        cases t with
        | mk ns val =>
            cases val with
            | some x =>
                simp only [contains_prefix_of_path, true_iff]
                exact ⟨[], List.nil_prefix, by simp⟩
            | none =>
                simp only [contains_prefix_of_path]
                refine iff_of_false (by simp) ?_
                rintro ⟨p, hp, hs⟩
                rw [List.prefix_nil.mp hp] at hs
                simp at hs
    | cons f rest ih =>
        intro t
        cases t with
        | mk ns val =>
            cases val with
            | some x =>
                simp only [contains_prefix_of_path, true_iff]
                exact ⟨[], List.nil_prefix, by simp⟩
            | none =>
                simp only [contains_prefix_of_path]
                cases hf : List.find? (fun p => p.1 == f) ns with
                | none =>
                    refine iff_of_false (by simp) ?_
                    rintro ⟨p, hp, hs⟩
                    cases p with
                    | nil => simp at hs
                    | cons a p2 =>
                        obtain ⟨rfl, hp2⟩ := List.cons_prefix_cons.mp hp
                        rw [getPath_cons] at hs
                        simp only [nodes_mk] at hs
                        rw [hf] at hs
                        simp at hs
                | some pr =>
                    rw [ih pr.2]
                    constructor
                    · rintro ⟨p2, hp2, hs⟩
                      refine ⟨f :: p2, List.cons_prefix_cons.mpr ⟨rfl, hp2⟩, ?_⟩
                      rw [getPath_cons]
                      simp only [nodes_mk]
                      rw [hf]
                      exact hs
                    · rintro ⟨p, hp, hs⟩
                      cases p with
                      | nil => simp at hs
                      | cons a p2 =>
                          obtain ⟨rfl, hp2⟩ := List.cons_prefix_cons.mp hp
                          rw [getPath_cons] at hs
                          simp only [nodes_mk] at hs
                          rw [hf] at hs
                          exact ⟨p2, hp2, hs⟩
  refine ⟨fun V t C => main V C t, fun V C => ?_⟩
  cases C with
  | nil => rfl
  | cons f rest => simp [contains_prefix_of_path, empty, List.find?]

theorem edgeIndicesAfterPrefix_descend :
    ∀ (pfx : List Nat) (t : PathsMap V),
      edgeIndicesAfterPrefix pfx t =
        (match descend t pfx with
         | some u => u.nodes.map (fun p => p.1)
         | none => []) := by
  intro pfx
  induction pfx with
  | nil => intro t; rfl
  | cons f rest ih =>
      intro t
      rw [show edgeIndicesAfterPrefix (f :: rest) t =
        (match t.nodes.find? (fun p => p.1 == f) with
         | some p => edgeIndicesAfterPrefix rest p.2
         | none => []) from rfl, descend_cons]
      cases t.nodes.find? (fun p => p.1 == f) with
      | none => rfl
      | some p => exact ih p.2

/-- C8: with an empty prefix, `edge_indices_after_prefix` returns the root's
child edge ids; with any prefix, it returns the child edge ids of the node
reached by following the prefix, or `[]` when the walk fails. -/
theorem edgeIndicesAfterPrefix_spec :
    ∀ (V : Type) (t : PathsMap V),
      edgeIndicesAfterPrefix [] t = t.nodes.map (fun p => p.1) ∧
      ∀ pfx : List Nat,
        edgeIndicesAfterPrefix pfx t =
          (match descend t pfx with
           | some u => u.nodes.map (fun p => p.1)
           | none => []) :=
  fun V t => ⟨rfl, fun pfx => edgeIndicesAfterPrefix_descend pfx t⟩

theorem find?_insertNodes (e : Nat) (upd : PathsMap V → PathsMap V) (fresh : PathsMap V) :
    ∀ ns : List (Nat × PathsMap V),
      List.find? (fun p => p.1 == e) (insertNodes e upd fresh ns) =
        some (e, match List.find? (fun p => p.1 == e) ns with
          | some pr => upd pr.2
          | none => fresh) := by
  intro ns
  induction ns with
  | nil => simp [insertNodes]
  | cons q tail ih =>
      obtain ⟨e2, c⟩ := q
      by_cases he : e2 = e
      · subst he
        simp [insertNodes, List.find?_cons]
      · simp only [insertNodes, if_neg he]
        have hbf : ((e2, c).1 == e) = false := by simpa using he
        simpa [List.find?_cons, hbf] using ih

theorem getPath_insert (s : List Nat) (v : V) :
    ∀ t : PathsMap V, getPath (insert t s v) s = some v := by
  induction s with
  | nil =>
      intro t
      cases t with
      | mk ns val => rfl
  | cons e rest ih =>
      intro t
      cases t with
      | mk ns val =>
          rw [show insert (.mk ns val) (e :: rest) v =
            .mk (insertNodes e (fun c => insert c rest v)
              (insert (.mk [] none) rest v) ns) val from rfl]
          rw [getPath_cons]
          simp only [nodes_mk]
          rw [find?_insertNodes]
          cases List.find? (fun p => p.1 == e) ns with
          | none => exact ih _
          | some pr => exact ih _

/-- C9: inserting `v1` and then `v2` at the identical edge sequence leaves
exactly `v2` retrievable at that sequence. -/
theorem insert_overwrite (V : Type) (t : PathsMap V) (s : List Nat) (v1 v2 : V) :
    getPath (insert (insert t s v1) s v2) s = some v2 :=
  getPath_insert s v2 (insert t s v1)

end PathsMap

namespace PathsMap

/-! Idempotence of the pruning operations. -/

theorem removeEdgeNodes_idem (f : Nat) :
    ∀ ns : List (Nat × PathsMap V),
      removeEdgeNodes f (removeEdgeNodes f ns) = removeEdgeNodes f ns := by
  intro ns
  induction ns using ind_nodes with
  | h0 => simp [removeEdgeNodes]
  | h1 e cns cval tail ih1 ih2 =>
      rw [removeEdgeNodes_cons]
      simp only [nodes_mk, value_mk]
      split
      · exact ih2
      · rename_i hne
        split
        · rename_i hemp
          rw [removeEdgeNodes_cons]
          simp only [nodes_mk, value_mk]
          rw [if_neg hne, if_pos hemp, ih2]
        · split
          · exact ih2
          · rename_i hnemp hrne
            rw [removeEdgeNodes_cons]
            simp only [nodes_mk, value_mk]
            rw [if_neg hne, ih1, if_neg hrne, if_neg hrne, ih2]

theorem removeEdgesNodes_idem (fs : Finset Nat) :
    ∀ ns : List (Nat × PathsMap V),
      removeEdgesNodes fs (removeEdgesNodes fs ns) = removeEdgesNodes fs ns := by
  intro ns
  induction ns using ind_nodes with
  | h0 => simp [removeEdgesNodes]
  | h1 e cns cval tail ih1 ih2 =>
      rw [removeEdgesNodes_cons]
      simp only [nodes_mk, value_mk]
      split
      · exact ih2
      · rename_i hne
        split
        · rename_i hemp
          rw [removeEdgesNodes_cons]
          simp only [nodes_mk, value_mk]
          rw [if_neg hne, if_pos hemp, ih2]
        · split
          · exact ih2
          · rename_i hnemp hrne
            rw [removeEdgesNodes_cons]
            simp only [nodes_mk, value_mk]
            rw [if_neg hne, ih1, if_neg hrne, if_neg hrne, ih2]

theorem removePrefixNodes_idem :
    ∀ ns : List (Nat × PathsMap V), ∀ (f : Nat) (rest : List Nat),
      removePrefixNodes f rest (removePrefixNodes f rest ns) =
        removePrefixNodes f rest ns := by
  intro ns
  induction ns using ind_nodes with
  | h0 => intro f rest; simp [removePrefixNodes]
  | h1 e cns cval tail ih1 ih2 =>
      intro f rest
      cases rest with
      | nil =>
          rw [removePrefixNodes_cons_nil]
          split
          · exact ih2 f []
          · rename_i hne
            rw [removePrefixNodes_cons_nil, if_neg hne, ih2 f []]
      | cons f2 rest2 =>
          rw [removePrefixNodes_cons_cons]
          simp only [nodes_mk, value_mk]
          split
          · rename_i heq
            split
            · exact ih2 f (f2 :: rest2)
            · rename_i hrne
              rw [removePrefixNodes_cons_cons]
              simp only [nodes_mk, value_mk]
              rw [if_pos heq, ih1 f2 rest2, if_neg hrne, ih2 f (f2 :: rest2)]
          · rename_i hne
            rw [removePrefixNodes_cons_cons, if_neg hne, ih2 f (f2 :: rest2)]

/-- C10: `remove_edge`, `remove_edges` and `remove_prefix` are idempotent:
repeating the call with the same argument is a no-op on the trie. -/
theorem remove_ops_idempotent (V : Type) (t : PathsMap V) (f : Nat) (fs : Finset Nat)
    (s : List Nat) :
    removeEdge f (removeEdge f t) = removeEdge f t ∧
      removeEdges fs (removeEdges fs t) = removeEdges fs t ∧
      removePrefix s (removePrefix s t) = removePrefix s t := by
  refine ⟨?_, ?_, ?_⟩
  · cases t with
    | mk ns val => simp [removeEdge, removeEdgeNodes_idem]
  · cases t with
    | mk ns val => simp [removeEdges, removeEdgesNodes_idem]
  · cases s with
    | nil => simp [removePrefix]
    | cons f2 rest2 =>
        cases t with
        | mk ns val => simp [removePrefix, removePrefixNodes_idem]

end PathsMap

namespace PathsMap

/-! Alignment of `iterate` with the `remove_first` drain order. -/

theorem iterateList_empty_of_is_empty {t : PathsMap V} (h : is_empty t = true) :
    iterateList t = [] := by
  rw [eq_empty_of_is_empty h]
  simp [iterateList, iterNodes, optEntry]

theorem iterateList_mk_cons (e : Nat) (c : PathsMap V) (tail : List (Nat × PathsMap V))
    (val : Option V) :
    iterateList (.mk ((e, c) :: tail) val) =
      optEntry val ++ ((iterateList c).map (fun q => (e :: q.1, q.2)) ++ iterNodes tail) := by
  simp [iterateList, iterNodes_cons]

theorem leafValued_cons_parts {e : Nat} {c : PathsMap V} {tail : List (Nat × PathsMap V)}
    {val : Option V} (h : leafValued (.mk ((e, c) :: tail) val) = true) :
    val = none ∧ leafValued c = true ∧ leafValuedN tail = true := by
  rw [leafValued] at h
  simp only [value_mk, nodes_mk, List.isEmpty_cons, Bool.or_false, Bool.and_eq_true] at h
  rw [leafValuedN_cons] at h
  simp only [Bool.and_eq_true] at h
  exact ⟨Option.isNone_iff_eq_none.mp h.1, h.2.1, h.2.2⟩

theorem remove_first_rec_iterate :
    ∀ t : PathsMap V, wf t = true → leafValued t = true → is_empty t = false →
      ∃ p flag v t2, remove_first_rec t = some (p, flag, v, t2) ∧
        iterateList t = (p, v) :: iterateList t2 ∧
        (flag = true ↔ is_empty t2 = true) ∧
        wf t2 = true ∧ leafValued t2 = true := by
  intro t
  induction t using ind_tree with
  | h ns val ih =>
      intro hw hlv hne
      cases ns with
      | nil =>
          cases val with
          | none => simp [is_empty] at hne
          | some v0 =>
              refine ⟨[], true, v0, .mk [] none, by simp [remove_first_rec], ?_, ?_, ?_, ?_⟩
              · simp [iterateList, optEntry, iterNodes]
              · simp [is_empty]
              · simp [wf, wfN]
              · simp [leafValued, leafValuedN]
      | cons q tail =>
          obtain ⟨e, c⟩ := q
          obtain ⟨hval, hlc, hltl⟩ := leafValued_cons_parts hlv
          subst hval
          rw [wf] at hw
          simp only [nodes_mk] at hw
          rw [wfN_cons] at hw
          simp only [Bool.and_eq_true, Bool.not_eq_true'] at hw
          obtain ⟨⟨hce, hcw⟩, htl⟩ := hw
          obtain ⟨p0, flag0, v0, c2, hrec, hit, hflag, hwc2, hlc2⟩ :=
            ih (e, c) (List.mem_cons_self _ _) hcw hlc hce
          cases flag0 with
          | true =>
              have hc2e : is_empty c2 = true := hflag.mp rfl
              have hc2it : iterateList c2 = [] := iterateList_empty_of_is_empty hc2e
              refine ⟨e :: p0, tail.isEmpty, v0, .mk tail none,
                by simp [remove_first_rec, hrec], ?_, ?_, ?_, ?_⟩
              · rw [iterateList_mk_cons, hit, hc2it]
                simp [optEntry, iterateList]
              · simp [is_empty]
              · rw [wf]
                simpa using htl
              · simp [leafValued, hltl]
          | false =>
              have hc2e : is_empty c2 = false := by
                cases h2 : is_empty c2
                · rfl
                · exact absurd (hflag.mpr h2) (by simp)
              refine ⟨e :: p0, false, v0, .mk ((e, c2) :: tail) none,
                by simp [remove_first_rec, hrec], ?_, ?_, ?_, ?_⟩
              · rw [iterateList_mk_cons, hit, iterateList_mk_cons]
                simp [optEntry]
              · simp [is_empty]
              · rw [wf]
                simp only [nodes_mk]
                rw [wfN_cons]
                simp [hc2e, hwc2, htl]
              · rw [leafValued]
                simp only [value_mk, nodes_mk, Option.isNone_none, Bool.true_or,
                  Bool.true_and]
                rw [leafValuedN_cons]
                simp [hlc2, hltl]

theorem remove_first_iterate_step {t : PathsMap V} (hw : wf t = true)
    (hl : leafValued t = true) (hne : is_empty t = false) :
    ∃ q t2, remove_first t = some (some q, t2) ∧
      iterateList t = q :: iterateList t2 ∧ wf t2 = true ∧ leafValued t2 = true := by
  obtain ⟨p, flag, v, t2, hrec, hit, hflag, hw2, hl2⟩ := remove_first_rec_iterate t hw hl hne
  exact ⟨(p, v), t2, by simp [remove_first, hne, hrec], hit, hw2, hl2⟩

theorem drain_eq_iterate :
    ∀ (n : Nat) (t : PathsMap V), wf t = true → leafValued t = true →
      (iterateList t).length ≤ n → drain n t = iterateList t := by
  intro n
  induction n with
  | zero =>
      intro t hw hl hlen
      have h0 : iterateList t = [] :=
        List.eq_nil_of_length_eq_zero (Nat.le_zero.mp hlen)
      simp [drain, h0]
  | succ n ihn =>
      intro t hw hl hlen
      cases hne : is_empty t with
      | true =>
          rw [iterateList_empty_of_is_empty hne]
          simp [drain, remove_first, hne]
      | false =>
          obtain ⟨q, t2, hrf, hit, hw2, hl2⟩ := remove_first_iterate_step hw hl hne
          have hlen2 : (iterateList t2).length ≤ n := by
            have := congrArg List.length hit
            simp only [List.length_cons] at this
            omega
          rw [hit]
          simp only [drain, hrf]
          rw [ihn t2 hw2 hl2 hlen2]

end PathsMap

namespace PathsMap

/-- C1 (failing evaluation): `samplePrefixPair` stores both `[1] ↦ 10` and
`[1, 2] ↦ 20`, yet draining it by repeated `remove_first` returns only
`([1, 2], 20)`: the very first call already returns an empty trie, so the pair
`([1], 10)` is silently dropped (in `remove_first_rec`, a node whose last
child was just drained reports itself empty by testing only
`self.nodes.is_empty()`, ignoring its own `value`). -/
theorem remove_first_drops_prefix_path :
    getPath samplePrefixPair [1] = some 10 ∧
      getPath samplePrefixPair [1, 2] = some 20 ∧
      drain 3 samplePrefixPair = [([1, 2], 20)] ∧
      (remove_first samplePrefixPair).map (fun r => (r.1, is_empty r.2)) =
        some (some ([1, 2], 20), true) := by
  refine ⟨by decide, by decide, by decide, ?_⟩
  have h : remove_first samplePrefixPair = some (some ([1, 2], 20), .mk [] none) := rfl
  rw [h]
  rfl

/-- C2 (failing evaluation): edge `2` does not occur in the stored path `[1]`,
yet `remove_edge 2` (and `remove_edges {2}`) deletes it: after removing the
forbidden child `2` inside the subtree of edge `1`, the code drops that
subtree because its child list is empty, even though it still holds the value
of the path `[1]`. -/
theorem remove_edge_drops_unrelated_path :
    (2 ∉ ([1] : List Nat)) ∧
      getPath samplePrefixPair [1] = some 10 ∧
      getPath (removeEdge 2 samplePrefixPair) [1] = none ∧
      getPath (removeEdges {2} samplePrefixPair) [1] = none := by
  have h : samplePrefixPair = .mk [(1, .mk [(2, .mk [] (some 20))] (some 10))] none := rfl
  refine ⟨by decide, by decide, ?_, ?_⟩
  · rw [h]
    simp [removeEdge, removeEdgeNodes, getPath, descend, nodes, value]
  · rw [h]
    simp [removeEdges, removeEdgesNodes, getPath, descend, nodes, value]

/-- C3 (failing evaluation): the stored path `[1]` does not start with the
prefix `[1, 2]`, yet `remove_prefix [1, 2]` deletes it, for the same reason:
after clearing the grandchild, the child holding the value of `[1]` has an
empty child list and is dropped wholesale. -/
theorem remove_pfx_drops_shorter_path :
    (([1, 2] : List Nat).isPrefixOf [1] = false) ∧
      getPath samplePrefixPair [1] = some 10 ∧
      getPath (removePrefix [1, 2] samplePrefixPair) [1] = none := by
  have h : samplePrefixPair = .mk [(1, .mk [(2, .mk [] (some 20))] (some 10))] none := rfl
  refine ⟨by decide, by decide, ?_⟩
  rw [h]
  simp [removePrefix, removePrefixNodes, getPath, descend, nodes, value]

/-- C5 (counterexample): on `samplePrefixPair`, `iterate` visits
`([1], 10)` and then `([1, 2], 20)`, while draining a copy with repeated
`remove_first` returns only `([1, 2], 20)` — so `iterate` does not visit the
valued nodes in the order in which `remove_first` returns those pairs. -/
theorem iterate_ne_drain_on_sample :
    iterateList samplePrefixPair = [([1], 10), ([1, 2], 20)] ∧
      drain 3 samplePrefixPair = [([1, 2], 20)] ∧
      iterateList samplePrefixPair ≠ drain 3 samplePrefixPair := by
  have h : samplePrefixPair = .mk [(1, .mk [(2, .mk [] (some 20))] (some 10))] none := rfl
  have h1 : iterateList samplePrefixPair = [([1], 10), ([1, 2], 20)] := by
    rw [h]
    simp [iterateList, iterNodes, optEntry, nodes, value]
  have h2 : drain 3 samplePrefixPair = [([1, 2], 20)] := by decide
  refine ⟨h1, h2, ?_⟩
  rw [h1, h2]
  decide

/-- C5 (amended): `iterate` visits every valued node exactly once with the
edge sequence from the root, a node's value before its children (depth first,
leftmost first); on a well-formed trie in which no stored sequence is a
proper prefix of another (every valued node is a leaf), this is exactly the
sequence of pairs that repeated `remove_first` calls on a copy return. -/
theorem iterate_eq_drain_of_leafValued (V : Type) (t : PathsMap V) (hw : wf t = true)
    (hl : leafValued t = true) :
    drain (iterateList t).length t = iterateList t :=
  drain_eq_iterate (iterateList t).length t hw hl le_rfl

/-- Witness for the amended C5 on a concrete two-leaf trie. -/
theorem iterate_eq_drain_of_leafValued_witness :
    wf (insert (insert (empty : PathsMap Nat) [1] 10) [2] 20) = true ∧
      leafValued (insert (insert (empty : PathsMap Nat) [1] 10) [2] 20) = true ∧
      drain (iterateList (insert (insert (empty : PathsMap Nat) [1] 10) [2] 20)).length
          (insert (insert (empty : PathsMap Nat) [1] 10) [2] 20) =
        iterateList (insert (insert (empty : PathsMap Nat) [1] 10) [2] 20) := by
  have h : insert (insert (empty : PathsMap Nat) [1] 10) [2] 20 =
      .mk [(1, .mk [] (some 10)), (2, .mk [] (some 20))] none := rfl
  refine ⟨?_, ?_, iterate_eq_drain_of_leafValued Nat _ ?_ ?_⟩ <;>
    · rw [h]
      simp [wf, wfN, leafValued, leafValuedN, nodes, value]

end PathsMap
